import Mathlib

/-!
# Verification of the Blaze native-engine core (limit_exec.rs, ipc_reader_exec.rs, expr/cast.rs)

Shallow embedding of the three source files of `datafusion-ext`:

* `limit_exec.rs` — the `LimitStream` poll state machine;
* `ipc_reader_exec.rs` — the `IpcReaderStream` segment-chaining poll loop and the
  `FileSegmentBatchReader` frame traversal over a file region;
* `expr/cast.rs` — the Spark-compatible string→integer parser (`to_integer`),
  the string→decimal pipeline (`to_decimal`), and the `TryCastExpr::evaluate` dispatch.

Strings are embedded as lists of byte values (`List Nat`); machine integers of
width `w` are embedded as `Int` with explicit two's-complement wrapping
(`wrapW`), matching Rust release-mode (wrapping) arithmetic that the Spark
accumulation trick relies on.  External collaborators (the zstd + Arrow IPC
decoder, the `bigdecimal` crate, the generic Arrow cast kernel) are not part of
this repository; they are modelled from the spec where needed and each such
definition says so in its doc comment.
-/

set_option maxRecDepth 100000

namespace Blaze

/-! ## Byte-level helpers -/

/-- Byte values of a string (the Rust code operates on `input.as_bytes()`;
all inputs of interest are ASCII, where `Char.toNat` is the byte value). -/
def strBytes (s : String) : List Nat :=
  s.data.map Char.toNat

/-- ASCII decimal digit test, `(b'0'..=b'9').contains(&b)` in the source. -/
def isDigit (b : Nat) : Bool :=
  48 ≤ b && b ≤ 57

/-- All bytes of a list are ASCII digits. -/
def allDigits (bs : List Nat) : Bool :=
  bs.all isDigit

/-! ## `to_integer` (expr/cast.rs lines 163–238)

The parser is generic over the signed target width `w ∈ {8,16,32,64}`.
`T::min_value() = -2^(w-1)`; Rust's `T::min_value() / radix` truncates toward
zero, which for the negative minimum equals `-(2^(w-1) / 10)` with natural
division.  Release-mode Rust arithmetic wraps on overflow, embedded by `wrapW`. -/

/-- Two's-complement wrap of an integer into the signed `w`-bit range
`[-2^(w-1), 2^(w-1))`. -/
def wrapW (w : Nat) (x : Int) : Int :=
  (x + 2 ^ (w - 1)) % 2 ^ w - 2 ^ (w - 1)

/-- `T::min_value()` for signed width `w`. -/
def intMinW (w : Nat) : Int := -(2 ^ (w - 1))

/-- `T::max_value()` for signed width `w`. -/
def intMaxW (w : Nat) : Int := 2 ^ (w - 1) - 1

/-- `stop_value = T::min_value() / radix` (Rust division truncates toward 0). -/
def stopValue (w : Nat) : Int := -((2 ^ (w - 1) / 10 : Nat) : Int)

/-- The first `while` loop of `to_integer`: scan bytes, stop at the decimal
separator `b'.' = 46`, reject non-digits, accumulate negatively with the two
overflow checks of the source (`result < stop_value` before the multiply,
`result > 0` after), and return the accumulator together with the bytes that
remain after a separator. -/
def accumLoop (w : Nat) : List Nat → Int → Option (Int × List Nat)
  | [], result => some (result, [])
  | b :: rest, result =>
    if b = 46 then
      some (result, rest)
    else if isDigit b then
      if result < stopValue w then
        none
      else
        let result' := wrapW w (result * 10 - ((b - 48 : Nat) : Int))
        if result' > 0 then none else accumLoop w rest result'
    else
      none

/-- The second `while` loop of `to_integer`: every byte after the decimal
separator must be a digit. -/
def fracCheck : List Nat → Bool
  | [] => true
  | b :: rest => if isDigit b then fracCheck rest else false

/-- The tail of `to_integer` after the first loop: verify the fractional
part, then negate the (negative) accumulator for non-negative inputs,
rejecting when the negation itself wraps below zero (exactly at the minimum
value). -/
def signFixup (w : Nat) (negative : Bool) : Option (Int × List Nat) → Option Int
  | none => none
  | some (result, remaining) =>
    if fracCheck remaining then
      if negative then
        some result
      else
        let result' := wrapW w (-result)
        if result' < 0 then none else some result'
    else
      none

/-- `to_integer` (expr/cast.rs lines 163–238), for signed target width `w`:
empty input is null; an optional sign is consumed (a lone sign is null);
`accumLoop` accumulates the integer part; `signFixup` checks the fractional
part and finalises the sign. -/
def to_integer (w : Nat) (input : List Nat) : Option Int :=
  match input with
  | [] => none
  | b :: rest =>
    let negative := b == 45
    if (negative || b == 43) && rest = [] then
      none
    else
      signFixup w negative (accumLoop w (if negative || b == 43 then rest else input) 0)

/-! ## Spec-side description of the Spark integer parse

`sparkIntSpec` is written from the spec's words (§4.2 steps 1–6 and the C3
claim): optional sign; the integer part is everything before the first decimal
separator and must be all digits; everything after the separator must be all
digits (and is discarded); the value is in range iff it fits the signed
`w`-bit target, the exact minimum included. -/

/-- Decimal value of a digit-byte list (most significant first). -/
def digitsVal (ds : List Nat) : Nat :=
  ds.foldl (fun a b => 10 * a + (b - 48)) 0

/-- `digitsVal` generalised over a starting accumulator. -/
def pushVal (acc : Nat) (ds : List Nat) : Nat :=
  ds.foldl (fun a b => 10 * a + (b - 48)) acc

/-- The integer part of a (sign-stripped) numeric string: everything before
the first decimal separator. -/
def intPart (body : List Nat) : List Nat :=
  body.takeWhile (fun c => c ≠ 46)

/-- The fractional part: everything after the first decimal separator
(empty when there is no separator). -/
def fracPart (body : List Nat) : List Nat :=
  body.drop ((intPart body).length + 1)

/-- The Spark string→integer semantics, stated from the spec's words. -/
def sparkIntSpec (w : Nat) (input : List Nat) : Option Int :=
  match input with
  | [] => none
  | b :: rest =>
    let negative := b == 45
    let body := if negative || b == 43 then rest else input
    if body = [] then
      none
    else
      if allDigits (intPart body) && allDigits (fracPart body) then
        if negative then
          if (digitsVal (intPart body) : Int) ≤ 2 ^ (w - 1) then
            some (-(digitsVal (intPart body) : Int))
          else
            none
        else
          if (digitsVal (intPart body) : Int) ≤ 2 ^ (w - 1) - 1 then
            some (digitsVal (intPart body) : Int)
          else
            none
      else
        none

/-! ## `LimitStream` (limit_exec.rs lines 85–124)

A record batch is embedded as its list of rows (rows are opaque `Nat` tags);
the child stream is embedded as the list of items it will yield, in order
(`Poll::Pending` only delays a poll, so it is not represented).  The struct
mirrors `LimitStream { input_stream, limit, cur, .. }`; metrics are omitted
(`record_poll` only updates counters and passes its argument through). -/

/-- One item of a record-batch stream: a batch (list of rows) or an error. -/
inductive LimitItem where
  | ok (batch : List Nat)
  | err (e : Nat)
deriving DecidableEq, Repr

/-- `LimitStream` state: the bound, the `cur` counter, and the remaining
child items. -/
structure LimitStream where
  limit : Nat
  cur : Nat
  input : List LimitItem
deriving DecidableEq, Repr

/-- `LimitStream::poll_next` (limit_exec.rs lines 101–123).  Returns the item
yielded by this poll (`none` = `Poll::Ready(None)`), whether the child stream
was polled, and the successor state.  Note the source never updates `cur`:
`rest = limit.saturating_sub(cur)` (saturating subtraction is `Nat` `-`),
batches with `num_rows ≤ rest` pass through unmodified, larger ones are
sliced to their first `rest` rows, and `cur` is left unchanged on every path. -/
def LimitStream.pollNext (s : LimitStream) : Option LimitItem × Bool × LimitStream :=
  let rest := s.limit - s.cur
  if rest = 0 then
    (none, false, s)
  else
    match s.input with
    | [] => (none, true, { s with input := [] })
    | .err e :: t => (some (.err e), true, { s with input := t })
    | .ok batch :: t =>
      let out := if batch.length ≤ rest then batch else batch.take rest
      (some (.ok out), true, { s with input := t })

/-- Drive a `LimitStream` with `fuel` polls, collecting the yielded items
until the stream reports end-of-stream.  `fuel = input.length + 1` polls
always suffice, since every yielding poll consumes one child item. -/
def LimitStream.runFuel : Nat → LimitStream → List LimitItem
  | 0, _ => []
  | fuel + 1, s =>
    match s.pollNext with
    | (none, _, _) => []
    | (some it, _, s') => it :: runFuel fuel s'

/-- Drive a `LimitStream` to completion. -/
def LimitStream.run (s : LimitStream) : List LimitItem :=
  LimitStream.runFuel (s.input.length + 1) s

/-- Total number of rows among the batch items of a stream output. -/
def outRows (items : List LimitItem) : Nat :=
  items.foldl (fun a it => match it with | .ok b => a + b.length | .err _ => a) 0

/-! ## `IpcReaderStream::poll_next` (ipc_reader_exec.rs lines 256–281)

Each segment of the provider is embedded as the list of items its reader
will yield (`get_channel_reader` / `get_file_segment_reader` and the decoding
behind them are external; only the chaining logic of `poll_next` matters
here).  The embedding mirrors the source's control flow including its
self-recursion `if self.next_segment()? { return self.poll_next(cx); }`:
the `Nat` in the result counts the nested `poll_next` re-entries this poll
performs, i.e. the stack depth the recursion consumes. -/

/-- One item of a segment reader: a decoded batch or an error. -/
inductive IpcItem where
  | ok (batch : List Nat)
  | err (e : Nat)
deriving DecidableEq, Repr

/-- `IpcReaderStream::poll_next`, with the current reader state and the
remaining provider segments as arguments (the `segments` iterator).  Returns
the yielded item, the successor `(reader, segments)` state, and the number of
recursive `poll_next` re-entries performed. -/
def ipcPollNext : List (List IpcItem) → Option (List IpcItem) →
    Option IpcItem × Option (List IpcItem) × List (List IpcItem) × Nat
  | segments, reader =>
    match reader with
    | some (it :: rest) =>
      -- current reader yields a batch (or error item): emit it
      (some it, some rest, segments, 0)
    | _ =>
      -- current reader absent or at EOF: `next_segment()` then recurse
      match segments with
      | [] => (none, none, [], 0)
      | seg :: t =>
        let r := ipcPollNext t (some seg)
        (r.1, r.2.1, r.2.2.1, r.2.2.2 + 1)

/-! ## `FileSegmentBatchReader` (ipc_reader_exec.rs lines 339–394)

The opened file is embedded as its byte list.  The zstd + Arrow IPC decoding
of one frame is external to this repository, so it is a parameter
`dec : List Nat → Except Nat (List (List Nat))`: applied to the frame's raw
bytes it yields either the frame's decoded batches or a decode error; this
stands for `zstd::stream::Decoder::new` + `StreamReader` (modelled from the
spec's "independently compressed columnar stream (schema + ≥1 batches)").
The recursion of `next_batch_impl` is embedded with fuel; the fuel-0 result
matches the spec twin's so that the refinement is stated for every fuel. -/

/-- A read error of the file-segment reader: an I/O failure
(`read_exact` hitting end-of-file) or a decoder error. -/
inductive ReadErr where
  | io
  | decode (e : Nat)
deriving DecidableEq, Repr

/-- `FileSegmentBatchReader` state (ipc_reader_exec.rs lines 339–345).
`segment_reader` holds the not-yet-yielded batches of the current frame's
decoder (`none` = no frame opened yet). -/
structure FileSegmentBatchReader where
  file : List Nat
  segment_reader : Option (List (List Nat))
  current_ipc_length : Nat
  current_start : Nat
  limit : Nat
deriving DecidableEq, Repr

/-- `FileSegmentBatchReader::try_new` (lines 347–355): `current_start`
begins at `offset` and `limit = offset + length`. -/
def FileSegmentBatchReader.tryNew (file : List Nat) (offset length : Nat) :
    FileSegmentBatchReader :=
  ⟨file, none, 0, offset, offset + length⟩

/-- Little-endian value of a byte list (first byte least significant),
`u64::from_le_bytes`. -/
def leVal (bs : List Nat) : Nat :=
  bs.foldr (fun b acc => b + 256 * acc) 0

/-- The bytes handed to the frame decoder:
`self.file.try_clone()?.take(self.current_ipc_length)` reads from the file
cursor (sitting just after the 8-byte length prefix) at most `len` bytes —
bounded by the end of the *file*, not by the reader's `limit`. -/
def frameSlice (file : List Nat) (pos len : Nat) : List Nat :=
  (file.drop (pos + 8)).take len

/-- `FileSegmentBatchReader::next_batch_impl` (lines 357–384), fuelled.
Mirrors the source: drain the current frame's decoder; if this is not the
first frame advance `current_start += 8 + current_ipc_length`; while
`current_start < limit`, seek there, `read_exact` the 8-byte little-endian
length (an I/O error if fewer than 8 bytes remain in the file), hand the
following bytes to the decoder and retry. -/
def nextBatchImpl (dec : List Nat → Except Nat (List (List Nat))) :
    Nat → FileSegmentBatchReader →
    Except ReadErr (Option (List Nat)) × FileSegmentBatchReader
  | 0, r => (.ok none, r)
  | fuel + 1, r =>
    match r.segment_reader with
    | some (b :: rest) => (.ok (some b), { r with segment_reader := some rest })
    | _ =>
      -- not first ipc -- update start pos
      let start := if r.segment_reader.isSome then
          r.current_start + 8 + r.current_ipc_length
        else
          r.current_start
      let r := { r with current_start := start }
      if start < r.limit then
        if start + 8 ≤ r.file.length then
          let len := leVal ((r.file.drop start).take 8)
          let r := { r with current_ipc_length := len }
          match dec (frameSlice r.file start len) with
          | .ok batches => nextBatchImpl dec fuel { r with segment_reader := some batches }
          | .error e => (.error (.decode e), r)
        else
          (.error .io, r)
      else
        (.ok none, r)

/-- Drive a file-segment reader, collecting batches until end-of-region or
the first error (`next_batch` surfaces `Err` as an item and the stream is
then abandoned by the harness). -/
def runReader (dec : List Nat → Except Nat (List (List Nat))) :
    Nat → FileSegmentBatchReader → List (List Nat) × Option ReadErr
  | 0, _ => ([], none)
  | fuel + 1, r =>
    match nextBatchImpl dec (fuel + 1) r with
    | (.ok none, _) => ([], none)
    | (.ok (some b), r') =>
      let rest := runReader dec fuel r'
      (b :: rest.1, rest.2)
    | (.error e, _) => ([], some e)

/-! ### Spec twin of the file-region traversal

`SpecRegionState`/`specRegionNext` are written from the spec's words
(§4.1 "File-Region Reader" and claim C7): maintain `position` (starting at
`offset`) and `currentFrameLength`; after the current frame's decoder is
drained, advance `position += 8 + currentFrameLength` only when this is not
the first frame; while `position < offset+length`, seek to `position`, read
the 8-byte little-endian unsigned length and decode exactly that many
following bytes as one compressed columnar stream; when
`position ≥ offset+length` the reader is exhausted. -/

/-- Spec-side traversal state: `notFirst` records whether a frame has been
opened, `pending` the batches of the current frame not yet emitted. -/
structure SpecRegionState where
  file : List Nat
  position : Nat
  frameLength : Nat
  regionEnd : Nat
  notFirst : Bool
  pending : List (List Nat)
deriving DecidableEq, Repr

/-- Modelled from the spec: one step of the File-Region Reader algorithm of
§4.1, written from the spec's words (see section header). -/
def specRegionNext (dec : List Nat → Except Nat (List (List Nat))) :
    Nat → SpecRegionState →
    Except ReadErr (Option (List Nat)) × SpecRegionState
  | 0, s => (.ok none, s)
  | fuel + 1, s =>
    match s.pending with
    | b :: rest => (.ok (some b), { s with pending := rest })
    | [] =>
      let pos := if s.notFirst then s.position + 8 + s.frameLength else s.position
      let s := { s with position := pos }
      if pos < s.regionEnd then
        if pos + 8 ≤ s.file.length then
          let len := leVal ((s.file.drop pos).take 8)
          let s := { s with frameLength := len }
          match dec (frameSlice s.file pos len) with
          | .ok batches =>
            specRegionNext dec fuel { s with notFirst := true, pending := batches }
          | .error e => (.error (.decode e), s)
        else
          (.error .io, s)
      else
        (.ok none, s)

/-- Abstraction from the source reader state to the spec traversal state:
`position` is `current_start`, a frame has been opened iff `segment_reader`
is `Some`, and the pending batches are those of the open decoder. -/
def absRegion (r : FileSegmentBatchReader) : SpecRegionState :=
  ⟨r.file, r.current_start, r.current_ipc_length, r.limit,
    r.segment_reader.isSome, r.segment_reader.getD []⟩

/-! ## `to_decimal` (expr/cast.rs lines 240–250)

The source delegates to the external `bigdecimal` crate:
`BigDecimal::from_str`, `with_prec`, `with_scale`, `as_bigint_and_exponent`
and `to_i128`.  That crate is not part of this repository, so those five
operations are modelled from the spec (§4.2 "Decimal parsing algorithm"):
an arbitrary-precision decimal is an unscaled integer with a scale
(value = intVal · 10^(−scale)); `with_prec` rounds to the requested number of
significant digits (the spec leaves the rounding mode open, §9; half-away-
from-zero is used here); `with_scale` rescales, truncating toward zero;
`to_i128` succeeds exactly when the value fits a signed 128-bit integer. -/

/-- An arbitrary-precision decimal: `intVal * 10 ^ (-scale)`. -/
structure BigDec where
  intVal : Int
  scale : Int
deriving DecidableEq, Repr

/-- Number of base-10 digits of `n` (at least 1), via fuelled division. -/
def digitCountAux : Nat → Nat → Nat
  | 0, _ => 0
  | fuel + 1, n => if n = 0 then 0 else digitCountAux fuel (n / 10) + 1

/-- Number of base-10 digits of a natural number (`digitCount 0 = 1`). -/
def digitCount (n : Nat) : Nat :=
  max 1 (digitCountAux n n)

/-- Modelled from the spec: `BigDecimal::from_str` — parse a base-10 decimal
literal (optional sign, digits, optional fractional part); at least one
digit is required; anything else is unparseable. -/
def bigDecimalFromStr (s : List Nat) : Option BigDec :=
  match s with
  | [] => none
  | b :: rest =>
    let neg := b = 45
    let body := if neg || b = 43 then rest else s
    let ipart := body.takeWhile (fun c => c ≠ 46)
    let fpart := body.drop (ipart.length + 1)
    if body = [] then none
    else if allDigits ipart && allDigits fpart then
      if ipart = [] && fpart = [] then none
      else
        let mag : Int := (digitsVal ipart : Int) * 10 ^ fpart.length + (digitsVal fpart : Int)
        some ⟨if neg then -mag else mag, (fpart.length : Int)⟩
    else none

/-- Round `n / d` to the nearest natural, half away from zero. -/
def roundDivNat (n d : Nat) : Nat :=
  (n + d / 2) / d

/-- Modelled from the spec: `BigDecimal::with_prec` — round the decimal to
`p` significant digits (identity when it already has at most `p`). -/
def withPrec (x : BigDec) (p : Nat) : BigDec :=
  let dc := digitCount x.intVal.natAbs
  if x.intVal = 0 || dc ≤ p || p = 0 then x
  else
    let k := dc - p
    let m : Int := (roundDivNat x.intVal.natAbs (10 ^ k) : Nat)
    ⟨if x.intVal < 0 then -m else m, x.scale - (k : Int)⟩

/-- Integer division truncating toward zero (`BigInt` division of the
`num` crate), divisor a power of ten. -/
def tdivPow10 (a : Int) (k : Nat) : Int :=
  if a < 0 then -((a.natAbs / 10 ^ k : Nat) : Int) else ((a.natAbs / 10 ^ k : Nat) : Int)

/-- Modelled from the spec: `BigDecimal::with_scale` — rescale to scale `sc`,
truncating (toward zero) any digits below the new scale. -/
def withScale (x : BigDec) (sc : Int) : BigDec :=
  if x.scale ≤ sc then
    ⟨x.intVal * 10 ^ (sc - x.scale).toNat, sc⟩
  else
    ⟨tdivPow10 x.intVal (x.scale - sc).toNat, sc⟩

/-- Smallest `i128` value. -/
def i128Min : Int := -(2 ^ 127)

/-- Largest `i128` value. -/
def i128Max : Int := 2 ^ 127 - 1

/-- Modelled from the spec: `BigInt::to_i128` — `some` exactly when the
integer fits in a signed 128-bit integer. -/
def toI128 (z : Int) : Option Int :=
  if i128Min ≤ z ∧ z ≤ i128Max then some z else none

/-- `to_decimal` (expr/cast.rs lines 240–250): parse, `with_prec(precision)`,
`with_scale(scale)`, then take the unscaled integer and convert to `i128`. -/
def to_decimal (input : List Nat) (precision scale : Nat) : Option Int :=
  ((bigDecimalFromStr input).map
      (fun d => withScale (withPrec d precision) (scale : Int))).bind
    (fun d => toI128 d.intVal)

/-- The decimal cast semantics stated from the C4 claim's words: unparseable
strings are null; otherwise the value rounded/truncated to
`(precision, scale)` is returned as its unscaled representation when that
fits a signed 128-bit integer, and is null when it does not. -/
def toDecimalSpec (input : List Nat) (precision scale : Nat) : Option Int :=
  match bigDecimalFromStr input with
  | none => none
  | some d =>
    let u := (withScale (withPrec d precision) (scale : Int)).intVal
    if i128Min ≤ u ∧ u ≤ i128Max then some u else none

/-! ## `TryCastExpr::evaluate` (expr/cast.rs lines 34–160)

Arrow `DataType`, typed values and `ColumnarValue` are embedded just deeply
enough for the dispatch: a value is a string, an integer, a decimal or an
opaque payload; an array carries its element type (`Array::data_type`).  The
generic Arrow cast kernel used by the default branch is external — the spec
delegates "all other type pairs" to it — so `evaluate` takes it as an
explicit elementwise parameter `g` applied per value (modelled from the
spec: "value widening/narrowing/truncation per conventional numeric-cast
rules", a per-value transformation).  `unwrap()`/`unreachable!()` aborts are
a distinguished `panic` outcome, distinct from ordinary errors and nulls. -/

/-- Embedded Arrow data types (the ones the dispatch distinguishes). -/
inductive DataType where
  | utf8
  | int8
  | int16
  | int32
  | int64
  | decimal128 (p s : Nat)
  | other (tag : Nat)
deriving DecidableEq, Repr

/-- Signed bit width of an integer `DataType` (0 otherwise). -/
def DataType.width : DataType → Nat
  | .int8 => 8
  | .int16 => 16
  | .int32 => 32
  | .int64 => 64
  | _ => 0

/-- An embedded scalar payload. -/
inductive Val where
  | str (bytes : List Nat)
  | int (v : Int)
  | dec (v : Int)
  | other (n : Nat)
deriving DecidableEq, Repr

/-- Outcome of an operation that may succeed, return an ordinary engine
error (`Err`, propagated by `?`), or abort (`unwrap`/`unreachable!`).
An abort is distinct from an error and from a null value. -/
inductive Outcome (α : Type) where
  | ok (a : α)
  | err (e : Nat)
  | panic
deriving DecidableEq, Repr

/-- Map over a successful outcome; errors and aborts propagate unchanged
(the behaviour of `?` around the call). -/
def Outcome.map {α β : Type} (f : α → β) : Outcome α → Outcome β
  | .ok a => .ok (f a)
  | .err e => .err e
  | .panic => .panic

/-- `array.as_any().downcast_ref::<StringArray>().unwrap()` on one element:
`none` is a null slot, a non-string payload makes the downcast panic. -/
def asStr : Option Val → Option (Option (List Nat))
  | none => some none
  | some (.str s) => some (some s)
  | some _ => none

/-- Downcast a whole value list to strings; `none` = downcast panic. -/
def downcastStringArray : List (Option Val) → Option (List (Option (List Nat)))
  | [] => some []
  | v :: vs =>
    match asStr v, downcastStringArray vs with
    | some s, some ss => some (s :: ss)
    | _, _ => none

/-- `try_cast_string_array_to_integer` (expr/cast.rs lines 111–138): for the
four integer targets, parse each string with `to_integer` (null slots stay
null); other targets fall through to the generic kernel `g`. -/
def try_cast_string_array_to_integer (g : DataType → DataType → Option Val → Option Val)
    (dt : DataType) (vals : List (Option Val)) (cast_type : DataType) :
    Outcome (List (Option Val)) :=
  match cast_type with
  | .int8 | .int16 | .int32 | .int64 =>
    match downcastStringArray vals with
    | none => .panic
    | some svals =>
      .ok (svals.map fun s? =>
        match s? with
        | none => none
        | some s => (to_integer cast_type.width s).map Val.int)
  | _ => .ok (vals.map (g dt cast_type))

/-- Modelled from the spec: the validation performed by the external Arrow
decimal builder's `append_value` (invoked with `?` at cast.rs line 151) —
per the data model (§3, glossary: a `Decimal(precision, scale)` carries an
unscaled value of at most `precision` decimal digits), a value whose
magnitude needs more than `precision` digits is rejected. -/
def validateDecimalPrecision (v : Int) (precision : Nat) : Bool :=
  -(10 ^ precision - 1) ≤ v && v ≤ 10 ^ precision - 1

/-- The builder loop of `try_cast_string_array_to_decimal` (cast.rs lines
148–156): null slots and unparseable strings append null
(`builder.append_null()`); parsed values are appended with
`builder.append_value(v)?`, whose precision validation turns an
out-of-precision value into an ordinary error for the whole cast. -/
def appendDecimalValues (p s : Nat) :
    List (Option (List Nat)) → Except Nat (List (Option Val))
  | [] => .ok []
  | none :: rest => (appendDecimalValues p s rest).map (fun l => none :: l)
  | some st :: rest =>
    match to_decimal st p s with
    | none => (appendDecimalValues p s rest).map (fun l => none :: l)
    | some v =>
      if validateDecimalPrecision v p then
        (appendDecimalValues p s rest).map (fun l => some (Val.dec v) :: l)
      else
        .error 0

/-- `try_cast_string_array_to_decimal` (expr/cast.rs lines 140–160): for a
`Decimal128(p, s)` target, parse each string with `to_decimal` and append
through the validating builder (an out-of-precision value is an ordinary
error via `?`, not a panic and not a null); any other target hits
`unreachable!("cast_type must be DataType::Decimal")`. -/
def try_cast_string_array_to_decimal
    (vals : List (Option Val)) (cast_type : DataType) : Outcome (List (Option Val)) :=
  match cast_type with
  | .decimal128 p s =>
    match downcastStringArray vals with
    | none => .panic
    | some svals =>
      match appendDecimalValues p s svals with
      | .ok outs => .ok outs
      | .error e => .err e
  | _ => .panic

/-- An embedded `ColumnarValue`: an array with its element type, or a scalar
with its type. -/
inductive ColumnarValue where
  | array (dt : DataType) (vals : List (Option Val))
  | scalar (dt : DataType) (v : Option Val)
deriving DecidableEq, Repr

/-- `ColumnarValue::data_type`. -/
def ColumnarValue.dataType : ColumnarValue → DataType
  | .array dt _ => dt
  | .scalar dt _ => dt

/-- `ScalarValue::to_array`: a one-element array of the scalar. -/
def scalarToArray (v : Option Val) : List (Option Val) := [v]

/-- `ScalarValue::try_from_array(array, 0)`: the element at index 0. -/
def scalarFromArray (vals : List (Option Val)) : Option Val :=
  vals.getD 0 none

/-- `TryCastExpr::evaluate` (expr/cast.rs lines 47–108) applied to the value
of the inner expression.  Dispatches on `(value.data_type(), cast_type)`:
the two `(Utf8, _)` special cases use the Spark parsers; everything else
uses the generic kernel `g`.  Scalars are materialised as one-element
arrays, cast through the same array path, and the single result extracted. -/
def TryCastExpr.evaluate (g : DataType → DataType → Option Val → Option Val)
    (value : ColumnarValue) (cast_type : DataType) : Outcome ColumnarValue :=
  match value.dataType, cast_type with
  | .utf8, .int8 | .utf8, .int16 | .utf8, .int32 | .utf8, .int64 =>
    match value with
    | .array dt vals =>
      (try_cast_string_array_to_integer g dt vals cast_type).map
        (fun out => .array cast_type out)
    | .scalar dt v =>
      (try_cast_string_array_to_integer g dt (scalarToArray v) cast_type).map
        (fun out => .scalar cast_type (scalarFromArray out))
  | .utf8, .decimal128 _ _ =>
    match value with
    | .array _ vals =>
      (try_cast_string_array_to_decimal vals cast_type).map
        (fun out => .array cast_type out)
    | .scalar _ v =>
      (try_cast_string_array_to_decimal (scalarToArray v) cast_type).map
        (fun out => .scalar cast_type (scalarFromArray out))
  | _, _ =>
    match value with
    | .array dt vals =>
      .ok (.array cast_type (vals.map (g dt cast_type)))
    | .scalar dt v =>
      .ok (.scalar cast_type (scalarFromArray (scalarToArray v |>.map (g dt cast_type))))

/-- The concrete frame decoder used for counterexamples and witnesses: the
frame's bytes decode (successfully) to a single batch holding exactly those
bytes as rows.  It instantiates the external zstd + Arrow decoder parameter
at a frame whose payload is decodable. -/
def decOneBatch : List Nat → Except Nat (List (List Nat)) :=
  fun bs => .ok [bs]

/-- Extract the single scalar out of a one-element array result (the
`ScalarValue::try_from_array(&cast_array, 0)` step); other values pass
through unchanged. -/
def extractScalar : ColumnarValue → ColumnarValue
  | .array dt vals => .scalar dt (scalarFromArray vals)
  | x => x

/-! # Theorems

General-purpose lemmas first, then one theorem per claim (C1–C10), each with
its doc comment, plus a witness where the claim theorem carries hypotheses. -/

/-! ## Lemmas about `wrapW` and the accumulation loop of `to_integer` -/

theorem twoPow_split (w : Nat) (hw : 1 ≤ w) :
    (2 : Int) ^ (w - 1) + 2 ^ (w - 1) = 2 ^ w := by
  obtain ⟨k, rfl⟩ : ∃ k, w = k + 1 := ⟨w - 1, (Nat.succ_pred_eq_of_pos hw).symm⟩
  simp [pow_succ]
  ring

theorem wrapW_eq_self (w : Nat) (x : Int) (hlo : -(2 ^ (w - 1)) ≤ x)
    (hhi : x < 2 ^ (w - 1)) (hw : 1 ≤ w) : wrapW w x = x := by
  unfold wrapW
  have hpow := twoPow_split w hw
  have h0 : 0 ≤ x + 2 ^ (w - 1) := by linarith
  have h1 : x + 2 ^ (w - 1) < 2 ^ w := by linarith
  rw [Int.emod_eq_of_lt h0 h1]
  ring

theorem wrapW_neg_large (w : Nat) (a : Nat) (hlo : (2 : Int) ^ (w - 1) < a)
    (hhi : (a : Int) ≤ 2 ^ (w - 1) + 2 ^ (w - 1)) (hw : 1 ≤ w) :
    wrapW w (-(a : Int)) = 2 ^ w - a := by
  unfold wrapW
  have hpow := twoPow_split w hw
  have h0 : 0 ≤ -(a : Int) + 2 ^ (w - 1) + 2 ^ w := by linarith
  have h1 : -(a : Int) + 2 ^ (w - 1) + 2 ^ w < 2 ^ w := by linarith
  have hsplit : -(a : Int) + 2 ^ (w - 1) = (-(a : Int) + 2 ^ (w - 1) + 2 ^ w) + 2 ^ w * (-1) := by
    ring
  rw [hsplit, Int.add_mul_emod_self_left, Int.emod_eq_of_lt h0 h1]
  ring

theorem pushVal_cons (acc b : Nat) (ds : List Nat) :
    pushVal acc (b :: ds) = pushVal (10 * acc + (b - 48)) ds := rfl

theorem pushVal_le (ds : List Nat) : ∀ acc : Nat, acc ≤ pushVal acc ds := by
  induction ds with
  | nil => intro acc; exact Nat.le_refl acc
  | cons b ds ih =>
    intro acc
    calc acc ≤ 10 * acc + (b - 48) := by omega
    _ ≤ pushVal (10 * acc + (b - 48)) ds := ih _
    _ = pushVal acc (b :: ds) := (pushVal_cons acc b ds).symm

theorem fracCheck_eq_allDigits (l : List Nat) : fracCheck l = allDigits l := by
  induction l with
  | nil => rfl
  | cons b t ih =>
    unfold fracCheck
    cases hb : isDigit b <;> simp [allDigits, hb, ih, List.all_cons]

theorem accumLoop_spec (w : Nat) (hw : 5 ≤ w) :
    ∀ (body : List Nat) (acc : Nat), acc ≤ 2 ^ (w - 1) →
      accumLoop w body (-(acc : Int)) =
        (if allDigits (intPart body) then
          (if pushVal acc (intPart body) ≤ 2 ^ (w - 1) then
            some (-(pushVal acc (intPart body) : Int), fracPart body)
          else none)
        else none) := by
  simp only [intPart, fracPart]
  have hw1 : 1 ≤ w := by omega
  have hB16 : 16 ≤ 2 ^ (w - 1) := by
    calc (16 : Nat) = 2 ^ 4 := by norm_num
    _ ≤ 2 ^ (w - 1) := Nat.pow_le_pow_right (by norm_num) (by omega)
  intro body
  induction body with
  | nil =>
    intro acc hacc
    simp [accumLoop, allDigits, pushVal, hacc]
  | cons b t ih =>
    intro acc hacc
    by_cases hb : b = 46
    · -- separator: the loop stops, integer part is empty
      subst hb
      simp [accumLoop, allDigits, pushVal, hacc]
    · cases hd : isDigit b with
      | false =>
        -- non-digit before any separator: null
        simp [accumLoop, hb, hd, List.takeWhile_cons, allDigits, List.all_cons]
      | true =>
        have hb57 : 48 ≤ b ∧ b ≤ 57 := by
          simpa [isDigit, Bool.and_eq_true, decide_eq_true_eq] using hd
        have htake : (b :: t).takeWhile (fun c => decide (c ≠ 46))
            = b :: t.takeWhile (fun c => decide (c ≠ 46)) := by
          simp [List.takeWhile_cons, hb]
        by_cases hover : 2 ^ (w - 1) / 10 < acc
        · -- the pre-multiplication check fires: result < stop_value
          have hstop : -(acc : Int) < stopValue w := by
            unfold stopValue
            omega
          have hbig : 2 ^ (w - 1) < pushVal acc (b :: t.takeWhile (fun c => decide (c ≠ 46))) := by
            rw [pushVal_cons]
            have hmono := pushVal_le (t.takeWhile (fun c => decide (c ≠ 46))) (10 * acc + (b - 48))
            have hdm := Nat.div_add_mod (2 ^ (w - 1)) 10
            have hmod : 2 ^ (w - 1) % 10 < 10 := Nat.mod_lt _ (by norm_num)
            omega
          rw [show accumLoop w (b :: t) (-(acc : Int)) = none by
            simp [accumLoop, hb, hd, hstop]]
          rw [htake]
          rw [if_neg (by omega : ¬ pushVal acc
            (b :: t.takeWhile (fun c => decide (c ≠ 46))) ≤ 2 ^ (w - 1))]
          rw [ite_self]
        · -- accumulate the digit with wrapping two's-complement arithmetic
          have hstop : ¬(-(acc : Int) < stopValue w) := by
            unfold stopValue
            omega
          have h10 : 10 * acc ≤ 2 ^ (w - 1) := by
            have := Nat.div_mul_le_self (2 ^ (w - 1)) 10
            omega
          have hcast : (-(acc : Int)) * 10 - ((b - 48 : Nat) : Int)
              = -(((10 * acc + (b - 48) : Nat) : Int)) := by
            push_cast
            ring
          by_cases hle : 10 * acc + (b - 48) ≤ 2 ^ (w - 1)
          · -- no overflow: the new accumulator is still in range
            have hwrap : wrapW w (-(((10 * acc + (b - 48) : Nat) : Int)))
                = -(((10 * acc + (b - 48) : Nat) : Int)) := by
              apply wrapW_eq_self w _ _ _ hw1
              · have : ((10 * acc + (b - 48) : Nat) : Int) ≤ ((2 ^ (w - 1) : Nat) : Int) :=
                  Int.ofNat_le.mpr hle
                push_cast at this ⊢
                omega
              · have : (0 : Int) < ((2 : Int) ^ (w - 1)) := by positivity
                omega
            have hpos : ¬(-(((10 * acc + (b - 48) : Nat) : Int)) > 0) := by
              have : (0 : Int) ≤ ((10 * acc + (b - 48) : Nat) : Int) := Int.ofNat_nonneg _
              omega
            rw [show accumLoop w (b :: t) (-(acc : Int))
                = accumLoop w t (-(((10 * acc + (b - 48) : Nat) : Int))) by
              rw [accumLoop, if_neg hb, if_pos hd, if_neg hstop]
              simp only [hcast, hwrap]
              rw [if_neg hpos]]
            rw [ih _ hle, htake]
            simp [allDigits, List.all_cons, hd, pushVal_cons]
          · -- overflow: the wrapped accumulator flips positive and is rejected
            have hgt : 2 ^ (w - 1) < 10 * acc + (b - 48) := by omega
            have hgtZ : (2 : Int) ^ (w - 1) < ((10 * acc + (b - 48) : Nat) : Int) := by
              exact_mod_cast hgt
            have hleZ : ((10 * acc + (b - 48) : Nat) : Int) ≤ 2 ^ (w - 1) + 2 ^ (w - 1) := by
              have hn : 10 * acc + (b - 48) ≤ 2 ^ (w - 1) + 2 ^ (w - 1) := by omega
              exact_mod_cast hn
            have hwrap : wrapW w (-(((10 * acc + (b - 48) : Nat) : Int)))
                = 2 ^ w - ((10 * acc + (b - 48) : Nat) : Int) :=
              wrapW_neg_large w _ hgtZ hleZ hw1
            have hpos : (2 : Int) ^ w - ((10 * acc + (b - 48) : Nat) : Int) > 0 := by
              have h2w := twoPow_split w hw1
              have hup : ((10 * acc + (b - 48) : Nat) : Int) < 2 ^ (w - 1) + 2 ^ (w - 1) := by
                have hn : 10 * acc + (b - 48) < 2 ^ (w - 1) + 2 ^ (w - 1) := by omega
                exact_mod_cast hn
              linarith
            rw [show accumLoop w (b :: t) (-(acc : Int)) = none by
              rw [accumLoop, if_neg hb, if_pos hd, if_neg hstop]
              simp only [hcast, hwrap]
              rw [if_pos hpos]]
            have hbig : 2 ^ (w - 1)
                < pushVal acc (b :: t.takeWhile (fun c => decide (c ≠ 46))) := by
              rw [pushVal_cons]
              have hmono := pushVal_le (t.takeWhile (fun c => decide (c ≠ 46)))
                (10 * acc + (b - 48))
              omega
            rw [htake]
            rw [if_neg (by omega : ¬ pushVal acc
              (b :: t.takeWhile (fun c => decide (c ≠ 46))) ≤ 2 ^ (w - 1))]
            rw [ite_self]

theorem wrapW_pow (w : Nat) (hw : 1 ≤ w) : wrapW w ((2 : Int) ^ (w - 1)) = -(2 ^ (w - 1)) := by
  unfold wrapW
  rw [twoPow_split w hw, Int.emod_self]
  ring

theorem digitsVal_eq_pushVal (ds : List Nat) : digitsVal ds = pushVal 0 ds := rfl

theorem to_integer_core (w : Nat) (hw : 5 ≤ w) (negative : Bool) (body : List Nat) :
    signFixup w negative (accumLoop w body 0)
    = (if allDigits (intPart body) && allDigits (fracPart body) then
        if negative then
          if (digitsVal (intPart body) : Int) ≤ 2 ^ (w - 1) then
            some (-(digitsVal (intPart body) : Int))
          else none
        else
          if (digitsVal (intPart body) : Int) ≤ 2 ^ (w - 1) - 1 then
            some (digitsVal (intPart body) : Int)
          else none
      else none) := by
  have hw1 : 1 ≤ w := by omega
  have hBpos : (0 : Int) < 2 ^ (w - 1) := by positivity
  have hBcast : ((2 ^ (w - 1) : Nat) : Int) = (2 : Int) ^ (w - 1) := by push_cast; rfl
  have h0 : accumLoop w body 0 = accumLoop w body (-((0 : Nat) : Int)) := by norm_num
  rw [h0, accumLoop_spec w hw body 0 (Nat.zero_le _), digitsVal_eq_pushVal]
  by_cases hip : allDigits (intPart body) = true
  · rw [if_pos hip]
    by_cases hVB : pushVal 0 (intPart body) ≤ 2 ^ (w - 1)
    · rw [if_pos hVB, signFixup, fracCheck_eq_allDigits]
      by_cases hfp : allDigits (fracPart body) = true
      · rw [if_pos hfp, if_pos (show (allDigits (intPart body)
          && allDigits (fracPart body)) = true by rw [hip, hfp]; rfl)]
        cases negative with
        | true =>
          rw [if_pos rfl, if_pos rfl]
          rw [if_pos (by rw [← hBcast]; exact_mod_cast hVB)]
        | false =>
          rw [if_neg (show ¬(false = true) by simp), if_neg (show ¬(false = true) by simp)]
          by_cases hVeq : pushVal 0 (intPart body) = 2 ^ (w - 1)
          · have hcastV : ((pushVal 0 (intPart body) : Nat) : Int)
                = (2 : Int) ^ (w - 1) := by rw [hVeq, hBcast]
            simp only [neg_neg, hcastV, wrapW_pow w hw1]
            rw [if_pos (by omega : -((2 : Int) ^ (w - 1)) < 0)]
            rw [if_neg (by omega : ¬((2 : Int) ^ (w - 1) ≤ 2 ^ (w - 1) - 1))]
          · have hVlt : ((pushVal 0 (intPart body) : Nat) : Int)
                < (2 : Int) ^ (w - 1) := by
              rw [← hBcast]
              exact_mod_cast Nat.lt_of_le_of_ne hVB hVeq
            have hV0 : (0 : Int) ≤ ((pushVal 0 (intPart body) : Nat) : Int) :=
              Int.ofNat_nonneg _
            simp only [neg_neg]
            rw [wrapW_eq_self w _ (by omega) hVlt hw1]
            rw [if_neg (show ¬(((pushVal 0 (intPart body) : Nat) : Int) < 0) by omega)]
            rw [if_pos (by omega :
              ((pushVal 0 (intPart body) : Nat) : Int) ≤ 2 ^ (w - 1) - 1)]
      · rw [if_neg hfp, if_neg (by simp [hip, hfp])]
    · rw [if_neg hVB, signFixup]
      have hVgt : (2 : Int) ^ (w - 1)
          < ((pushVal 0 (intPart body) : Nat) : Int) := by
        rw [← hBcast]
        exact_mod_cast Nat.lt_of_not_le hVB
      cases hall : allDigits (intPart body) && allDigits (fracPart body) with
      | false => rw [if_neg (by simp [hall])]
      | true =>
        rw [if_pos (by simp [hall])]
        cases negative with
        | true =>
          rw [if_pos rfl, if_neg (by omega)]
        | false =>
          rw [if_neg (show ¬(false = true) by simp), if_neg (by omega)]
  · rw [if_neg hip, signFixup]
    rw [if_neg (by simp [hip])]

theorem to_integer_eq_spark (w : Nat) (hw : 5 ≤ w) :
    ∀ input, to_integer w input = sparkIntSpec w input := by
  intro input
  cases input with
  | nil => rfl
  | cons b rest =>
    by_cases h45 : b = 45
    · subst h45
      cases rest with
      | nil => rfl
      | cons c t => exact to_integer_core w hw true (c :: t)
    · by_cases h43 : b = 43
      · subst h43
        cases rest with
        | nil => rfl
        | cons c t => exact to_integer_core w hw false (c :: t)
      · have hd45 : (b == 45) = false := by simp [h45]
        have hd43 : (b == 43) = false := by simp [h43]
        simp only [to_integer, sparkIntSpec, hd45, hd43]
        exact to_integer_core w hw false (b :: rest)

/-! ## Claim theorems -/

/-- C1: the claim says the Limit operator emits exactly `min(n, R)` rows in
total, tracking emitted rows across polls by adding each passed-through
batch's row count to its counter.  The code never updates `cur`, so with
bound 1 and a child yielding two one-row batches the stream emits 2 rows,
not `min 1 2 = 1`: evaluation of the embedded code at the failing input. -/
theorem limit_stream_total_rows_exceeds_bound :
    LimitStream.run ⟨1, 0, [.ok [10], .ok [20]]⟩ = [.ok [10], .ok [20]] ∧
    outRows [.ok [10], .ok [20]] = 2 ∧
    Nat.min 1 2 = 1 := by decide

/-- C2: the claim says that once `n` rows have been emitted every subsequent
poll ends the stream and the child is never polled again.  With bound 1,
after the first poll emits the one allowed row, the next poll still polls
the child (flag `true`) and emits a further row — `cur` is never updated, so
`remaining` only saturates to 0 when the bound itself is 0 (third conjunct:
with `limit = 0` the child is indeed never polled). -/
theorem limit_stream_polls_child_after_bound :
    (LimitStream.pollNext ⟨1, 0, [.ok [7], .ok [8]]⟩
      = (some (.ok [7]), true, ⟨1, 0, [.ok [8]]⟩)) ∧
    (LimitStream.pollNext ⟨1, 0, [.ok [8]]⟩
      = (some (.ok [8]), true, ⟨1, 0, ([] : List LimitItem)⟩)) ∧
    (LimitStream.pollNext ⟨0, 0, [.ok [9]]⟩
      = (none, false, ⟨0, 0, [.ok [9]]⟩)) := by decide

/-- C3: `to_integer` implements exactly the Spark string→integer semantics
`sparkIntSpec` at every width in {8, 16, 32, 64} (first conjunct: an optional
sign, all-digit integer part, all-digit discarded fractional part, the value
null exactly on malformed input or overflow of the signed `w`-bit range, the
exact minimum included), together with the spec's concrete examples:
`"123"→123`, `"-0"→0`, `"3.9"→3`, `"3.9x"→null`, `""→null`, `"+"→null`,
`"2147483648"→null` and `"-2147483648"→-2^31` at 32 bits. -/
theorem to_integer_matches_spark_spec :
    (∀ w, w ∈ ([8, 16, 32, 64] : List Nat) → ∀ input,
      to_integer w input = sparkIntSpec w input) ∧
    (∀ w, w ∈ ([8, 16, 32, 64] : List Nat) →
      to_integer w (strBytes "123") = some 123 ∧
      to_integer w (strBytes "-0") = some 0 ∧
      to_integer w (strBytes "3.9") = some 3 ∧
      to_integer w (strBytes "3.9x") = none ∧
      to_integer w (strBytes "") = none ∧
      to_integer w (strBytes "+") = none) ∧
    to_integer 32 (strBytes "2147483648") = none ∧
    to_integer 32 (strBytes "-2147483648") = some (-2147483648) := by
  refine ⟨?_, by decide, by decide, by decide⟩
  intro w hw input
  refine to_integer_eq_spark w ?_ input
  fin_cases hw <;> norm_num

/-- Witness for C3: the equivalence applied at width 32 on a concrete input
with leading zeros and a fractional part. -/
theorem to_integer_matches_spark_spec_witness :
    to_integer 32 (strBytes "00123.45") = sparkIntSpec 32 (strBytes "00123.45") ∧
    to_integer 32 (strBytes "00123.45") = some 123 :=
  ⟨to_integer_matches_spark_spec.1 32 (by decide) (strBytes "00123.45"), by decide⟩

/-- C4: `to_decimal` returns null exactly when the string is unparseable as a
base-10 decimal literal or the value rounded/truncated to
`(precision, scale)` has an unscaled representation outside the signed
128-bit range, and otherwise returns that unscaled value (`toDecimalSpec`
states this from the claim's words); with concrete instances of all three
cases. -/
theorem to_decimal_matches_spec :
    (∀ input precision scale,
      to_decimal input precision scale = toDecimalSpec input precision scale) ∧
    to_decimal (strBytes "12.34") 4 1 = some 123 ∧
    to_decimal (strBytes "abc12") 10 2 = none ∧
    to_decimal (strBytes "1") 38 50 = none := by
  refine ⟨?_, by decide, by decide, by decide⟩
  intro input p sc
  unfold to_decimal toDecimalSpec toI128
  cases bigDecimalFromStr input <;> simp

/-- C5: the claim says a file region whose final frame declares a length
exceeding the remaining region bytes must surface a decode/I-O error and
emit no batch.  The embedded reader bounds frame reads by the file, not by
`limit`: on a 13-byte file with region `[0, 10)` whose single frame declares
5 payload bytes (the region leaves only 2), the reader decodes the full
frame from beyond the region and emits its batch, then ends cleanly with no
error (second conjunct: the declared frame end `8 + 5` exceeds the region
end `10`). -/
theorem file_segment_reader_reads_past_region :
    runReader decOneBatch 3 (FileSegmentBatchReader.tryNew
        [5, 0, 0, 0, 0, 0, 0, 0, 1, 2, 3, 4, 5] 0 10)
      = ([[1, 2, 3, 4, 5]], none) ∧
    10 < 8 + leVal (([5, 0, 0, 0, 0, 0, 0, 0, 1, 2, 3, 4, 5].drop 0).take 8) := by decide

theorem ipcPollNext_empty_aux (n : Nat) :
    ipcPollNext (List.replicate n []) (some []) = (none, none, [], n) := by
  induction n with
  | zero => rfl
  | succ n ih => simp [List.replicate_succ, ipcPollNext, ih]

/-- C6: the claim says the advance-then-retry control flow is an explicit
loop with bounded stack depth.  The embedded `poll_next` mirrors the
source's self-recursion (`if self.next_segment()? { return self.poll_next(cx) }`)
and its re-entry count on a provider of `n` empty segments is exactly `n`:
the recursion depth grows without bound in the number of consecutive
empty/EOF segments. -/
theorem ipc_poll_next_recursion_depth_unbounded :
    ∀ n : Nat, ipcPollNext (List.replicate n []) none = (none, none, [], n) := by
  intro n
  cases n with
  | zero => rfl
  | succ n => simp [List.replicate_succ, ipcPollNext, ipcPollNext_empty_aux n]

/-- C8: `try_cast_string_array_to_decimal` with any non-`Decimal128` target
aborts (`unreachable!`) rather than returning null or an ordinary error;
with a `Decimal128` target (on an array whose downcast succeeds) the abort
branch is unreachable: the result is an ordinary `ok` or, when a parsed
value exceeds the target precision (`builder.append_value(v)?`), an
ordinary error — never a panic.  The last two conjuncts evaluate both
outcomes: `"12345"` at `Decimal(4, 1)` has unscaled value 123500 (6 digits)
and yields the ordinary error, while `"1.5"` at `Decimal(3, 1)` succeeds. -/
theorem cast_decimal_non_decimal_target_panics :
    (∀ vals ct, (∀ p s, ct ≠ DataType.decimal128 p s) →
      try_cast_string_array_to_decimal vals ct = .panic) ∧
    (∀ vals svals p s, downcastStringArray vals = some svals →
      try_cast_string_array_to_decimal vals (.decimal128 p s) ≠ .panic) ∧
    try_cast_string_array_to_decimal [some (.str (strBytes "12345"))] (.decimal128 4 1)
      = .err 0 ∧
    try_cast_string_array_to_decimal [some (.str (strBytes "1.5"))] (.decimal128 3 1)
      = .ok [some (.dec 15)] := by
  refine ⟨?_, ?_, by decide, by decide⟩
  · intro vals ct h
    cases ct <;> first
      | rfl
      | exact absurd rfl (h _ _)
  · intro vals svals p s h
    simp only [try_cast_string_array_to_decimal, h]
    cases hadv : appendDecimalValues p s svals <;> simp [hadv]

/-- Witness for C8: a concrete panic at an `Int32` target, and a concrete
`Decimal128(3, 1)` cast that does not hit the abort branch. -/
theorem cast_decimal_non_decimal_target_panics_witness :
    try_cast_string_array_to_decimal [some (.str (strBytes "1.5"))] .int32 = .panic ∧
    try_cast_string_array_to_decimal [some (.str (strBytes "1.5"))] (.decimal128 3 1)
      ≠ .panic := by
  constructor
  · exact cast_decimal_non_decimal_target_panics.1 _ _ (fun p s h => by cases h)
  · exact cast_decimal_non_decimal_target_panics.2.1 [some (.str (strBytes "1.5"))]
      [some (strBytes "1.5")] 3 1 (by decide)

/-- C10: at every signed target width, a decimal separator with no digits at
all parses to 0 — `"."`, `"+."` and `"-."` all give `Some 0` — although the
empty string and a bare sign give null. -/
theorem to_integer_lone_separator_is_zero :
    ∀ w, w ∈ ([8, 16, 32, 64] : List Nat) →
      to_integer w (strBytes ".") = some 0 ∧
      to_integer w (strBytes "+.") = some 0 ∧
      to_integer w (strBytes "-.") = some 0 ∧
      to_integer w (strBytes "") = none ∧
      to_integer w (strBytes "+") = none ∧
      to_integer w (strBytes "-") = none := by decide

/-- Witness for C10: the lone-separator case at width 32. -/
theorem to_integer_lone_separator_is_zero_witness :
    to_integer 32 (strBytes ".") = some 0 :=
  (to_integer_lone_separator_is_zero 32 (by decide)).1

theorem nextBatchImpl_simulation (dec : List Nat → Except Nat (List (List Nat))) :
    ∀ (fuel : Nat) (r : FileSegmentBatchReader),
      (nextBatchImpl dec fuel r).1 = (specRegionNext dec fuel (absRegion r)).1 ∧
      absRegion (nextBatchImpl dec fuel r).2 = (specRegionNext dec fuel (absRegion r)).2 := by
  intro fuel
  induction fuel with
  | zero => intro r; exact ⟨rfl, rfl⟩
  | succ n ih =>
    intro r
    obtain ⟨file, sr, ipc, start, lim⟩ := r
    match sr with
    | some (b :: rest) => exact ⟨rfl, rfl⟩
    | none =>
      by_cases hlt : start < lim
      · by_cases hred : start + 8 ≤ file.length
        · cases hdec : dec (frameSlice file start (leVal ((file.drop start).take 8))) with
          | ok batches =>
            have h := ih ⟨file, some batches,
              leVal ((file.drop start).take 8), start, lim⟩
            simp only [nextBatchImpl, specRegionNext, absRegion, hlt, hred, hdec,
              Option.isSome_none, Bool.false_eq_true, if_false, if_true, Option.getD_none]
            simpa [absRegion] using h
          | error e =>
            simp [nextBatchImpl, specRegionNext, absRegion, hlt, hred, hdec]
        · simp [nextBatchImpl, specRegionNext, absRegion, hlt, hred]
      · simp [nextBatchImpl, specRegionNext, absRegion, hlt]
    | some [] =>
      by_cases hlt : start + 8 + ipc < lim
      · by_cases hred : start + 8 + ipc + 8 ≤ file.length
        · cases hdec : dec (frameSlice file (start + 8 + ipc)
              (leVal ((file.drop (start + 8 + ipc)).take 8))) with
          | ok batches =>
            have h := ih ⟨file, some batches,
              leVal ((file.drop (start + 8 + ipc)).take 8), start + 8 + ipc, lim⟩
            simp only [nextBatchImpl, specRegionNext, absRegion, hlt, hred, hdec,
              Option.isSome_some, Option.getD_some, if_true]
            simpa [absRegion] using h
          | error e =>
            simp [nextBatchImpl, specRegionNext, absRegion, hlt, hred, hdec]
        · simp [nextBatchImpl, specRegionNext, absRegion, hlt, hred]
      · simp [nextBatchImpl, specRegionNext, absRegion, hlt]

/-- C7: the file-region reader follows the spec's frame-traversal algorithm
exactly: every step of the embedded `next_batch_impl` produces the same
output and an `absRegion`-corresponding state as the algorithm written from
the spec's words (`specRegionNext`); after construction the position is
`offset` and the region end `offset + length` with no frame opened; and the
bytes handed to the decoder are exactly the declared `len` bytes following
the 8-byte length prefix whenever the file extends that far. -/
theorem file_segment_reader_refines_spec_traversal :
    (∀ (dec : List Nat → Except Nat (List (List Nat))) (fuel : Nat)
        (r : FileSegmentBatchReader),
      (nextBatchImpl dec fuel r).1 = (specRegionNext dec fuel (absRegion r)).1 ∧
      absRegion (nextBatchImpl dec fuel r).2 = (specRegionNext dec fuel (absRegion r)).2) ∧
    (∀ (file : List Nat) (offset length : Nat),
      absRegion (FileSegmentBatchReader.tryNew file offset length)
        = ⟨file, offset, 0, offset + length, false, []⟩) ∧
    (∀ (file : List Nat) (pos len : Nat), pos + 8 + len ≤ file.length →
      (frameSlice file pos len).length = len) := by
  refine ⟨nextBatchImpl_simulation, fun _ _ _ => rfl, ?_⟩
  intro file pos len h
  simp only [frameSlice, List.length_take, List.length_drop]
  omega

/-- Witness for C7: the frame-slice length fact at a concrete file, and the
simulation evaluated on a concrete region. -/
theorem file_segment_reader_refines_spec_traversal_witness :
    (frameSlice [9, 9, 9, 9, 9, 9, 9, 9, 1, 2] 0 2).length = 2 ∧
    (nextBatchImpl decOneBatch 2
        (FileSegmentBatchReader.tryNew [2, 0, 0, 0, 0, 0, 0, 0, 7, 8] 0 10)).1
      = (specRegionNext decOneBatch 2
          (absRegion (FileSegmentBatchReader.tryNew [2, 0, 0, 0, 0, 0, 0, 0, 7, 8] 0 10))).1 := by
  constructor
  · exact file_segment_reader_refines_spec_traversal.2.2
      [9, 9, 9, 9, 9, 9, 9, 9, 1, 2] 0 2 (by decide)
  · exact (file_segment_reader_refines_spec_traversal.1 decOneBatch 2
      (FileSegmentBatchReader.tryNew [2, 0, 0, 0, 0, 0, 0, 0, 7, 8] 0 10)).1

theorem Outcome.map_map {α β γ : Type} (f : α → β) (h : β → γ) (o : Outcome α) :
    (o.map f).map h = o.map (fun a => h (f a)) := by
  cases o <;> rfl

theorem downcastStringArray_spec :
    ∀ (vals : List (Option Val)) (svals : List (Option (List Nat))),
      downcastStringArray vals = some svals →
      svals.length = vals.length ∧
      ∀ i : Nat, asStr (vals.getD i none) = some (svals.getD i none) := by
  intro vals
  induction vals with
  | nil =>
    intro svals h
    simp only [downcastStringArray, Option.some.injEq] at h
    subst h
    exact ⟨rfl, fun i => by simp [asStr]⟩
  | cons v vs ih =>
    intro svals h
    simp only [downcastStringArray] at h
    cases hv : asStr v with
    | none => rw [hv] at h; cases h
    | some s =>
      cases hvs : downcastStringArray vs with
      | none => rw [hv, hvs] at h; cases h
      | some ss =>
        rw [hv, hvs] at h
        obtain rfl : s :: ss = svals := by injection h
        obtain ⟨hlen, hget⟩ := ih ss hvs
        refine ⟨by simp [hlen], fun i => ?_⟩
        cases i with
        | zero => simpa using hv
        | succ j => simpa using hget j

theorem getD_map_lt {α β : Type} (f : α → β) (l : List α) (i : Nat)
    (h : i < l.length) (d : α) (e : β) : (l.map f).getD i e = f (l.getD i d) := by
  rw [List.getD_eq_getElem l d h,
    List.getD_eq_getElem (l.map f) e (by simpa using h)]
  simp

theorem appendDecimalValues_spec (p s : Nat) :
    ∀ (svals : List (Option (List Nat))) (outs : List (Option Val)),
      appendDecimalValues p s svals = .ok outs →
      outs.length = svals.length ∧
      ∀ i : Nat, appendDecimalValues p s [svals.getD i none] = .ok [outs.getD i none] := by
  intro svals
  induction svals with
  | nil =>
    intro outs h
    simp only [appendDecimalValues, Except.ok.injEq] at h
    subst h
    exact ⟨rfl, fun i => rfl⟩
  | cons x rest ih =>
    intro outs h
    cases x with
    | none =>
      rw [appendDecimalValues] at h
      cases hr : appendDecimalValues p s rest with
      | error e => rw [hr] at h; simp [Except.map] at h
      | ok l =>
        rw [hr] at h
        simp only [Except.map, Except.ok.injEq] at h
        subst h
        obtain ⟨hlen, hget⟩ := ih l hr
        refine ⟨by simp [hlen], fun i => ?_⟩
        cases i with
        | zero => simp only [List.getD_cons_zero]; rfl
        | succ j => simp only [List.getD_cons_succ]; exact hget j
    | some st =>
      cases hd : to_decimal st p s with
      | none =>
        simp only [appendDecimalValues, hd] at h
        cases hr : appendDecimalValues p s rest with
        | error e => rw [hr] at h; simp [Except.map] at h
        | ok l =>
          rw [hr] at h
          simp only [Except.map, Except.ok.injEq] at h
          subst h
          obtain ⟨hlen, hget⟩ := ih l hr
          refine ⟨by simp [hlen], fun i => ?_⟩
          cases i with
          | zero =>
            simp only [List.getD_cons_zero]
            simp [appendDecimalValues, hd, Except.map]
          | succ j => simp only [List.getD_cons_succ]; exact hget j
      | some v =>
        by_cases hv : validateDecimalPrecision v p = true
        · simp only [appendDecimalValues, hd, hv, if_true] at h
          cases hr : appendDecimalValues p s rest with
          | error e => rw [hr] at h; simp [Except.map] at h
          | ok l =>
            rw [hr] at h
            simp only [Except.map, Except.ok.injEq] at h
            subst h
            obtain ⟨hlen, hget⟩ := ih l hr
            refine ⟨by simp [hlen], fun i => ?_⟩
            cases i with
            | zero =>
              simp only [List.getD_cons_zero]
              simp [appendDecimalValues, hd, hv, Except.map]
            | succ j => simp only [List.getD_cons_succ]; exact hget j
        · simp only [appendDecimalValues, hd] at h
          rw [if_neg hv] at h
          cases h

/-- C9: evaluating the cast on a scalar yields exactly the value obtained by
materialising the one-element array, casting it through the same array path,
and extracting element 0 (first conjunct, for every input type, target type
and generic-kernel instantiation `g`); consequently scalar and vector
evaluation agree elementwise: whenever the array cast succeeds, the scalar
cast of element `i` yields element `i` of the array result (second
conjunct). -/
theorem try_cast_scalar_agrees_with_array :
    (∀ (g : DataType → DataType → Option Val → Option Val) (dt : DataType)
        (v : Option Val) (ct : DataType),
      TryCastExpr.evaluate g (.scalar dt v) ct
        = (TryCastExpr.evaluate g (.array dt [v]) ct).map extractScalar) ∧
    (∀ (g : DataType → DataType → Option Val → Option Val) (dt : DataType)
        (vals : List (Option Val)) (ct : DataType) (out : List (Option Val)),
      TryCastExpr.evaluate g (.array dt vals) ct = .ok (.array ct out) →
      ∀ i : Nat, i < vals.length →
        TryCastExpr.evaluate g (.scalar dt (vals.getD i none)) ct
          = .ok (.scalar ct (out.getD i none))) := by
  constructor
  · intro g dt v ct
    cases dt <;> cases ct <;>
      first
      | rfl
      | (simp only [TryCastExpr.evaluate, ColumnarValue.dataType]
         rw [Outcome.map_map]
         rfl)
  · intro g dt vals ct out h i hi
    cases dt <;> cases ct <;>
      first
      | -- string→integer branches
        (simp only [TryCastExpr.evaluate, ColumnarValue.dataType, scalarToArray,
            try_cast_string_array_to_integer] at h ⊢
         cases hdc : downcastStringArray vals with
         | none => rw [hdc] at h; simp [Outcome.map] at h
         | some svals =>
           rw [hdc] at h
           simp only [Outcome.map, Outcome.ok.injEq, ColumnarValue.array.injEq,
             eq_self_iff_true, true_and] at h
           obtain ⟨hlen, hget⟩ := downcastStringArray_spec vals svals hdc
           rw [show downcastStringArray [vals.getD i none]
               = some [svals.getD i none] by
             rw [downcastStringArray, downcastStringArray, hget i]]
           subst h
           rw [getD_map_lt _ svals i (by omega) none none]
           rfl)
      | -- string→decimal branch
        (rename_i p s
         simp only [TryCastExpr.evaluate, ColumnarValue.dataType, scalarToArray] at h ⊢
         simp only [try_cast_string_array_to_decimal] at h
         cases hdc : downcastStringArray vals with
         | none => rw [hdc] at h; simp [Outcome.map] at h
         | some svals =>
           rw [hdc] at h
           cases hadv : appendDecimalValues p s svals with
           | error e => simp [hadv, Outcome.map] at h
           | ok outs2 =>
             simp only [hadv, Outcome.map, Outcome.ok.injEq, ColumnarValue.array.injEq,
               eq_self_iff_true, true_and] at h
             obtain ⟨hlen, hget⟩ := downcastStringArray_spec vals svals hdc
             obtain ⟨hlen2, hget2⟩ := appendDecimalValues_spec p s svals outs2 hadv
             rw [show try_cast_string_array_to_decimal [vals.getD i none]
                   (DataType.decimal128 p s) = .ok [outs2.getD i none] by
               simp only [try_cast_string_array_to_decimal,
                 show downcastStringArray [vals.getD i none]
                     = some [svals.getD i none] by
                   rw [downcastStringArray, downcastStringArray, hget i],
                 hget2 i]]
             subst h
             rfl)
      | -- default (generic kernel) branches
        (simp only [TryCastExpr.evaluate, ColumnarValue.dataType, scalarToArray,
            Outcome.ok.injEq, ColumnarValue.array.injEq, eq_self_iff_true,
            true_and] at h
         subst h
         rw [getD_map_lt _ vals i hi none none]
         rfl)

/-- Witness for C9: the elementwise-agreement conjunct discharged on a
concrete two-element string array cast to `Int32`. -/
theorem try_cast_scalar_agrees_with_array_witness :
    TryCastExpr.evaluate (fun _ _ v => v)
        (.scalar .utf8 ((([some (.str (strBytes "42")), some (.str (strBytes "x"))]
          : List (Option Val)).getD 0 none))) .int32
      = .ok (.scalar .int32 ((([some (.int 42), none] : List (Option Val)).getD 0 none))) := by
  have h := try_cast_scalar_agrees_with_array.2 (fun _ _ v => v) .utf8
    [some (.str (strBytes "42")), some (.str (strBytes "x"))] .int32
    [some (.int 42), none] (by decide) 0 (by decide)
  exact h

end Blaze
